import Mathlib

/-!
Shallow embedding of the rng-nibbler library (src/lib.rs): a bit-buffering
layer over a random word generator (`RngBitstream.gen_bits`) and a uniform
range sampler built on it (`gen_range`).

Machine integers (`u64`, `u32`) are embedded as `Nat` with explicit
`% 2 ^ 64` where the Rust code wraps or discards high bits.  Arithmetic that
Rust checks in debug builds (add/sub/mul overflow, shift amounts ≥ 64) is
embedded as `Option`-returning checked operations; a `none` result models the
Rust panic.  The unbounded `loop` in `gen_range` is embedded with explicit
fuel; running out of fuel is reported as `timeout`, which is distinct from
`panic`, so panic-freedom and partial correctness can be stated precisely.
The underlying generator (`rand::Rng`, an external collaborator) is embedded
as an arbitrary infinite stream of words together with a position index;
`gen` reads the word at the current position (reduced into u64 range) and
advances the position.
-/

/-- The size of the u64 value space, `2 ^ 64`. -/
def U64 : Nat := 2 ^ 64

/-- The external random word generator: an arbitrary stream of words and the
position of the next word to be produced. `rand::Rng::gen::<u64>()` is
embedded as reading the current word (reduced mod `2 ^ 64`) and advancing. -/
structure RngState where
  stream : Nat → Nat
  idx : Nat

/-- Draw one fresh u64 word from the generator (Rust `self.rng.gen()`). -/
def RngState.gen (r : RngState) : Nat × RngState :=
  (r.stream r.idx % U64, ⟨r.stream, r.idx + 1⟩)

/-- The `RngBitstream` struct of src/lib.rs: the wrapped generator, the
64-bit cache `bit_buffer`, and the count `unused_bits` of not yet consumed
bits at the top of the cache. -/
structure RngBitstream where
  rng : RngState
  bit_buffer : Nat
  unused_bits : Nat

/-- `RngBitstream::new`: wraps a generator with an empty bit buffer. -/
def RngBitstream.new (r : RngState) : RngBitstream :=
  { rng := r, bit_buffer := 0, unused_bits := 0 }

/-- Well-formedness of the embedded state: `bit_buffer` fits in a u64 (true
by typing in Rust) and `unused_bits` is in `[0, 64)` (the documented
invariant). -/
def RngBitstream.WF (s : RngBitstream) : Prop :=
  s.bit_buffer < U64 ∧ s.unused_bits < 64

/-- Checked unsigned subtraction: Rust `a - b` panics on underflow in debug
builds; the panic is `none`. -/
def checkedSub (a b : Nat) : Option Nat :=
  if b ≤ a then some (a - b) else none

/-- Checked u64 addition: Rust `a + b` panics on overflow in debug builds. -/
def checkedAdd64 (a b : Nat) : Option Nat :=
  if a + b < U64 then some (a + b) else none

/-- Checked u64 multiplication: Rust `a * b` panics on overflow in debug
builds. -/
def checkedMul64 (a b : Nat) : Option Nat :=
  if a * b < U64 then some (a * b) else none

/-- Checked u64 left shift: Rust `a << k` panics when `k ≥ 64`; otherwise
bits shifted out of the top are discarded (hence `% 2 ^ 64`). -/
def shl64 (a k : Nat) : Option Nat :=
  if k < 64 then some ((a <<< k) % U64) else none

/-- Checked u64 right shift: Rust `a >> k` panics when `k ≥ 64`. -/
def shr64 (a k : Nat) : Option Nat :=
  if k < 64 then some (a >>> k) else none

/-- The mask applied in `gen_bits`: `result &= (1 << num_bits) - 1`, which
the code only applies under the guard `num_bits < 64` (the full-width case
must stay unmasked because `1u64 << 64` would overflow). -/
def maskLow (num_bits r : Nat) : Nat :=
  if num_bits < 64 then r &&& ((1 <<< num_bits) - 1) else r

/-- `<RngBitstream as Bitstream>::gen_bits` of src/lib.rs, with Rust debug
(checked) arithmetic: `none` models a panic.  Mirrors the source line by
line: take the top `unused_bits` bits of the cache as the low bits of the
result (masked when `num_bits < 64`); if they suffice, just decrement
`unused_bits`, otherwise draw a fresh word, splice its low `extra_bits` bits
above the leftover bits, and set `unused_bits := 64 - extra_bits`. -/
def gen_bits (num_bits : Nat) (s : RngBitstream) : Option (Nat × RngBitstream) :=
  let step1 : Option Nat :=
    if 0 < s.unused_bits then
      match checkedSub 64 s.unused_bits with
      | none => none
      | some sh =>
        match shr64 s.bit_buffer sh with
        | none => none
        | some r => some (maskLow num_bits r)
    else some 0
  match step1 with
  | none => none
  | some result =>
    if num_bits ≤ s.unused_bits then
      some (result, { s with unused_bits := s.unused_bits - num_bits })
    else
      let extra_bits := num_bits - s.unused_bits
      let (word, rng') := s.rng.gen
      match shl64 word s.unused_bits with
      | none => none
      | some hi =>
        let result2 := maskLow num_bits (result ||| hi)
        match checkedSub 64 extra_bits with
        | none => none
        | some ub => some (result2, { rng := rng', bit_buffer := word, unused_bits := ub })

/-- Bit length of a u64 value (64 minus its `leading_zeros`), computed with
structural recursion so that it reduces in the kernel; the gas argument 64
covers every value below `2 ^ 64`. -/
def bitLenAux : Nat → Nat → Nat
  | 0, _ => 0
  | gas + 1, n => if n = 0 then 0 else bitLenAux gas (n / 2) + 1

/-- Bit length of a u64 value: `bitLen n = 64 - n.leading_zeros()`. -/
def bitLen (n : Nat) : Nat := bitLenAux 64 n

/-- Result of one run of the embedded `gen_range`: a normal return, a Rust
debug panic (checked arithmetic failure), or fuel exhaustion of the
unbounded refinement loop. -/
inductive RunResult where
  | ok (v : Nat) (s : RngBitstream)
  | panicked
  | timeout

/-- Whether a run ended in a panic. -/
def isPanic : RunResult → Bool
  | .panicked => true
  | _ => false

/-- Result of one iteration of the refinement loop of `gen_range`: either a
return from the function, a continuation with new `leftover` and
`leftover_size`, or a panic. -/
inductive LoopStep where
  | ret (v : Nat) (s : RngBitstream)
  | cont (leftover leftover_size : Nat) (s : RngBitstream)
  | panicked

/-- The residual `(leftover, leftover_size)` pair of a continuing loop
iteration, if the iteration did continue. -/
def contResidual : LoopStep → Option (Nat × Nat)
  | .cont l ls _ => some (l, ls)
  | _ => none

/-- The inner `while (leftover_size << bits_needed) < size` scan of
`gen_range` (src/lib.rs lines 78-81): starting from `bits_needed = 1`, find
the least shift making `leftover_size << bits_needed` reach `size`.  The
shift is the checked u64 shift, so reaching `bits_needed = 64` is a panic
(`none`); the structural gas argument (64 at the call site) only bounds the
recursion and is never exhausted before that. -/
def findBitsNeeded (leftover_size size : Nat) : Nat → Nat → Option Nat
  | _, 0 => none
  | k, gas + 1 =>
    if k < 64 then
      if (leftover_size <<< k) % U64 < size then findBitsNeeded leftover_size size (k + 1) gas
      else some k
    else none

/-- One iteration of the `loop` in `gen_range` (src/lib.rs lines 73-89):
find `bits_needed`, fold `gen_bits(bits_needed)` into `leftover` in base
`leftover_size`, return if below `size`, otherwise grow `leftover_size` by
the shift and subtract `size` from both. -/
def genRangeStep (size leftover leftover_size : Nat) (s : RngBitstream) : LoopStep :=
  match findBitsNeeded leftover_size size 1 64 with
  | none => .panicked
  | some bits_needed =>
    match gen_bits bits_needed s with
    | none => .panicked
    | some (b, s') =>
      match checkedMul64 b leftover_size with
      | none => .panicked
      | some m =>
        match checkedAdd64 leftover m with
        | none => .panicked
        | some leftover' =>
          if leftover' < size then .ret leftover' s'
          else
            match shl64 leftover_size bits_needed with
            | none => .panicked
            | some grown =>
              match checkedSub leftover' size with
              | none => .panicked
              | some l2 =>
                match checkedSub grown size with
                | none => .panicked
                | some ls2 => .cont l2 ls2 s'

/-- The refinement `loop` of `gen_range`, iterated with explicit fuel. -/
def genRangeLoop (size : Nat) : Nat → Nat → Nat → RngBitstream → RunResult
  | 0, _, _, _ => .timeout
  | fuel + 1, leftover, leftover_size, s =>
    match genRangeStep size leftover leftover_size s with
    | .panicked => .panicked
    | .ret v s' => .ok v s'
    | .cont l' ls' s' => genRangeLoop size fuel l' ls' s'

/-- `BitstreamExt::gen_range` of src/lib.rs with Rust debug (checked)
arithmetic.  `size - 1` is checked (underflow at `size = 0` is a panic),
`leading_zeros` of the u64 `size - 1` is `64 - bitLen`, the initial draw is
`gen_bits(bits_needed)`, and `(1 << bits_needed) - size` uses the checked
u64 shift, which panics when `bits_needed = 64` (i.e. `size > 2 ^ 63`). -/
def gen_range (fuel size : Nat) (s : RngBitstream) : RunResult :=
  match checkedSub size 1 with
  | none => .panicked
  | some sm1 =>
    let size_leading_zeros := 64 - bitLen sm1
    let bits_needed := 64 - size_leading_zeros
    match gen_bits bits_needed s with
    | none => .panicked
    | some (leftover, s1) =>
      if leftover < size then .ok leftover s1
      else
        match checkedSub leftover size with
        | none => .panicked
        | some l1 =>
          match shl64 1 bits_needed with
          | none => .panicked
          | some p =>
            match checkedSub p size with
            | none => .panicked
            | some ls0 => genRangeLoop size fuel l1 ls0 s1

/-! ### Arithmetic helper lemmas -/

lemma U64_eq : U64 = 2 ^ 64 := rfl

lemma U64_pos : 0 < U64 := by decide

/-- The mask is reduction mod a power of two (and the identity at full
width). -/
lemma maskLow_eq (nb r : Nat) : maskLow nb r = if nb < 64 then r % 2 ^ nb else r := by
  unfold maskLow
  split
  · rw [Nat.shiftLeft_eq, one_mul, Nat.and_pow_two_sub_one_eq_mod]
  · rfl

lemma two_pow_sub_one_div {a b : Nat} (h : b ≤ a) :
    (2 ^ a - 1) / 2 ^ b = 2 ^ (a - b) - 1 := by
  obtain ⟨m, hm⟩ : ∃ m, 2 ^ (a - b) = m + 1 :=
    ⟨2 ^ (a - b) - 1, by have := @Nat.one_le_two_pow (a - b); omega⟩
  have hpow : 2 ^ a = 2 ^ b * (m + 1) := by
    rw [← hm, ← pow_add]; congr 1; omega
  have hN : 0 < 2 ^ b := Nat.two_pow_pos b
  have key : 2 ^ a - 1 = (2 ^ b - 1) + 2 ^ b * m := by
    have h2 : 2 ^ b * (m + 1) = 2 ^ b * m + 2 ^ b := by ring
    omega
  rw [key, Nat.add_mul_div_left _ _ hN, Nat.div_eq_of_lt (by omega)]
  omega

lemma two_pow_sub_one_mod {a b : Nat} (h : b ≤ a) :
    (2 ^ a - 1) % 2 ^ b = 2 ^ b - 1 := by
  obtain ⟨m, hm⟩ : ∃ m, 2 ^ (a - b) = m + 1 :=
    ⟨2 ^ (a - b) - 1, by have := @Nat.one_le_two_pow (a - b); omega⟩
  have hpow : 2 ^ a = 2 ^ b * (m + 1) := by
    rw [← hm, ← pow_add]; congr 1; omega
  have hN : 0 < 2 ^ b := Nat.two_pow_pos b
  have key : 2 ^ a - 1 = (2 ^ b - 1) + 2 ^ b * m := by
    have h2 : 2 ^ b * (m + 1) = 2 ^ b * m + 2 ^ b := by ring
    omega
  rw [key, Nat.add_mul_mod_self_left, Nat.mod_eq_of_lt (by omega)]

/-! ### bitLen lemmas -/

lemma bitLenAux_zero (gas : Nat) : bitLenAux gas 0 = 0 := by
  cases gas <;> rfl

lemma bitLenAux_lt : ∀ gas n, n < 2 ^ gas → n < 2 ^ bitLenAux gas n := by
  intro gas
  induction gas with
  | zero => intro n h; simpa [bitLenAux] using h
  | succ g ih =>
    intro n h
    unfold bitLenAux
    split
    · omega
    · have hdiv : n / 2 < 2 ^ g := by
        rw [pow_succ] at h; omega
      have hb := ih (n / 2) hdiv
      rw [pow_succ]
      omega

lemma bitLenAux_le : ∀ gas n k, n < 2 ^ k → bitLenAux gas n ≤ k := by
  intro gas
  induction gas with
  | zero => intro n k _; exact Nat.zero_le k
  | succ g ih =>
    intro n k h
    unfold bitLenAux
    split
    · exact Nat.zero_le k
    · have hk : 0 < k := by
        rcases Nat.eq_zero_or_pos k with hk0 | hk0
        · subst hk0; simp at h; omega
        · exact hk0
      have hdiv : n / 2 < 2 ^ (k - 1) := by
        have : 2 ^ k = 2 * 2 ^ (k - 1) := by
          rw [← pow_succ']; congr 1; omega
        omega
      have := ih (n / 2) (k - 1) hdiv
      omega

lemma bitLenAux_min : ∀ gas n, 0 < n → n < 2 ^ gas → 2 ^ (bitLenAux gas n - 1) ≤ n := by
  intro gas
  induction gas with
  | zero => intro n h0 h; omega
  | succ g ih =>
    intro n h0 h
    unfold bitLenAux
    rw [if_neg (by omega)]
    rcases Nat.eq_zero_or_pos (n / 2) with hd | hd
    · have hn1 : n = 1 := by omega
      subst hn1
      rw [bitLenAux_zero]
      simp
    · have hdiv : n / 2 < 2 ^ g := by
        rw [pow_succ] at h; omega
      have hb := ih (n / 2) hd hdiv
      have hbpos : 0 < bitLenAux g (n / 2) := by
        cases g with
        | zero => omega
        | succ g' =>
          unfold bitLenAux
          rw [if_neg (by omega)]
          omega
      have h2 : 2 ^ (bitLenAux g (n / 2) - 1 + 1) = 2 * 2 ^ (bitLenAux g (n / 2) - 1) := by
        rw [pow_succ]; ring
      calc 2 ^ (bitLenAux g (n / 2) + 1 - 1) = 2 ^ (bitLenAux g (n / 2) - 1 + 1) := by congr 1; omega
    _ = 2 * 2 ^ (bitLenAux g (n / 2) - 1) := h2
    _ ≤ 2 * (n / 2) := by omega
    _ ≤ n := by omega

lemma bitLen_lt (n : Nat) (h : n < U64) : n < 2 ^ bitLen n :=
  bitLenAux_lt 64 n h

lemma bitLen_le (n k : Nat) (h : n < 2 ^ k) : bitLen n ≤ k :=
  bitLenAux_le 64 n k h

lemma bitLen_min (n : Nat) (h0 : 0 < n) (h : n < U64) : 2 ^ (bitLen n - 1) ≤ n :=
  bitLenAux_min 64 n h0 h

lemma bitLen_pos (n : Nat) (h0 : 0 < n) (h : n < U64) : 0 < bitLen n := by
  rcases Nat.eq_zero_or_pos (bitLen n) with h1 | h1
  · have := bitLen_lt n h
    rw [h1] at this
    omega
  · exact h1

/-! ### gen_bits evaluation lemmas -/

/-- Evaluation of `gen_bits` when the request is served from leftover bits. -/
lemma gen_bits_eq_of_le {num_bits : Nat} {s : RngBitstream}
    (h1 : 0 < s.unused_bits) (h2 : num_bits ≤ s.unused_bits) (h3 : s.unused_bits ≤ 64) :
    gen_bits num_bits s =
      some (maskLow num_bits (s.bit_buffer >>> (64 - s.unused_bits)),
        { s with unused_bits := s.unused_bits - num_bits }) := by
  unfold gen_bits checkedSub shr64
  simp only [if_pos h1, if_pos h3, if_pos h2, if_pos (show 64 - s.unused_bits < 64 by omega)]

/-- Evaluation of `gen_bits` on an empty buffer with a positive request: one
fresh word is drawn and its low bits are returned. -/
lemma gen_bits_eq_fresh {num_bits : Nat} {s : RngBitstream}
    (h1 : s.unused_bits = 0) (h2 : 0 < num_bits) (h3 : num_bits ≤ 64) :
    gen_bits num_bits s =
      some (maskLow num_bits (s.rng.stream s.rng.idx % U64),
        ⟨⟨s.rng.stream, s.rng.idx + 1⟩, s.rng.stream s.rng.idx % U64,
          64 - num_bits⟩) := by
  unfold gen_bits checkedSub shl64 RngState.gen
  rw [h1]
  simp only [if_neg (by omega : ¬ 0 < 0), if_neg (by omega : ¬ num_bits ≤ 0),
    if_pos (by omega : 0 < 64), if_pos (by omega : num_bits - 0 ≤ 64)]
  have hmod : ((s.rng.stream s.rng.idx % U64) <<< 0) % U64 = s.rng.stream s.rng.idx % U64 := by
    rw [Nat.shiftLeft_eq, pow_zero, mul_one]
    exact Nat.mod_eq_of_lt (Nat.mod_lt _ U64_pos)
  rw [hmod]
  simp [Nat.zero_or]

/-- Evaluation of `gen_bits` when the leftover bits are insufficient: the
leftover bits become the low bits and a fresh word supplies the rest. -/
lemma gen_bits_eq_split {num_bits : Nat} {s : RngBitstream}
    (h1 : 0 < s.unused_bits) (h2 : s.unused_bits < num_bits) (h3 : num_bits ≤ 64)
    (h4 : s.unused_bits < 64) :
    gen_bits num_bits s =
      some (maskLow num_bits
          (maskLow num_bits (s.bit_buffer >>> (64 - s.unused_bits)) |||
            ((s.rng.stream s.rng.idx % U64) <<< s.unused_bits) % U64),
        ⟨⟨s.rng.stream, s.rng.idx + 1⟩, s.rng.stream s.rng.idx % U64,
          64 - (num_bits - s.unused_bits)⟩) := by
  unfold gen_bits checkedSub shr64 shl64 RngState.gen
  simp only [if_pos h1, if_pos (show s.unused_bits ≤ 64 by omega),
    if_pos (show 64 - s.unused_bits < 64 by omega), if_neg (by omega : ¬ num_bits ≤ s.unused_bits),
    if_pos h4, if_pos (show num_bits - s.unused_bits ≤ 64 by omega)]

/-- Master specification of `gen_bits` for in-contract requests on
well-formed states: the call succeeds, the result fits in `num_bits` bits,
well-formedness is preserved, and `unused_bits` evolves exactly as the code
prescribes in each of the two branches. -/
lemma gen_bits_spec (num_bits : Nat) (s : RngBitstream)
    (hnb : num_bits ≤ 64) (hu : s.unused_bits < 64) (hbuf : s.bit_buffer < U64) :
    ∃ v s', gen_bits num_bits s = some (v, s') ∧
      v < 2 ^ num_bits ∧ s'.bit_buffer < U64 ∧ s'.unused_bits < 64 ∧
      (num_bits ≤ s.unused_bits → s' = { s with unused_bits := s.unused_bits - num_bits }) ∧
      (s.unused_bits < num_bits →
        s'.unused_bits = 64 - (num_bits - s.unused_bits) ∧
        s'.bit_buffer = s.rng.stream s.rng.idx % U64 ∧
        s'.rng.stream = s.rng.stream ∧ s'.rng.idx = s.rng.idx + 1) := by
  have hmasklt : ∀ r, num_bits < 64 → maskLow num_bits r < 2 ^ num_bits := by
    intro r h
    rw [maskLow_eq, if_pos h]
    exact Nat.mod_lt _ (Nat.two_pow_pos _)
  have hshr_lt : s.bit_buffer >>> (64 - s.unused_bits) < U64 := by
    rw [Nat.shiftRight_eq_div_pow]
    exact Nat.lt_of_le_of_lt (Nat.div_le_self _ _) hbuf
  have hmask_le : ∀ r, r < U64 → maskLow num_bits r < U64 := by
    intro r h
    rw [maskLow_eq]
    split
    · exact Nat.lt_of_lt_of_le (Nat.mod_lt _ (Nat.two_pow_pos _))
        (Nat.pow_le_pow_right (by omega) (by omega))
    · exact h
  by_cases hle : num_bits ≤ s.unused_bits
  · -- served from leftover bits
    by_cases hpos : 0 < s.unused_bits
    · refine ⟨_, _, gen_bits_eq_of_le hpos hle (by omega), ?_, hbuf, by simp; omega, fun _ => rfl,
        fun h => absurd h (by omega)⟩
      exact hmasklt _ (by omega)
    · -- unused_bits = 0 and num_bits = 0
      have hu0 : s.unused_bits = 0 := by omega
      have hnb0 : num_bits = 0 := by omega
      refine ⟨0, { s with unused_bits := s.unused_bits - num_bits }, ?_, ?_, hbuf,
        by simp; omega, fun _ => rfl, fun h => absurd h (by omega)⟩
      · unfold gen_bits
        rw [hu0, hnb0]
        simp
      · rw [hnb0]; omega
  · -- a fresh word is drawn
    have hwlt : s.rng.stream s.rng.idx % U64 < U64 := Nat.mod_lt _ U64_pos
    by_cases hpos : 0 < s.unused_bits
    · refine ⟨_, _, gen_bits_eq_split hpos (by omega) hnb hu, ?_, hwlt, by simp; omega,
        fun h => absurd h (by omega), fun _ => ⟨by simp, rfl, rfl, rfl⟩⟩
      rcases Nat.lt_or_ge num_bits 64 with h64 | h64
      · exact hmasklt _ h64
      · have hnb64 : num_bits = 64 := by omega
        subst hnb64
        rw [show (2 : Nat) ^ 64 = U64 from rfl]
        refine hmask_le _ ?_
        exact Nat.or_lt_two_pow (hmask_le _ hshr_lt) (Nat.mod_lt _ U64_pos)
    · have hu0 : s.unused_bits = 0 := by omega
      refine ⟨_, _, gen_bits_eq_fresh hu0 (by omega) hnb, ?_, hwlt, by simp; omega,
        fun h => absurd h (by omega), fun _ => ⟨by simp [hu0], rfl, rfl, rfl⟩⟩
      rcases Nat.lt_or_ge num_bits 64 with h64 | h64
      · exact hmasklt _ h64
      · have hnb64 : num_bits = 64 := by omega
        subst hnb64
        rw [show (2 : Nat) ^ 64 = U64 from rfl]
        exact hmask_le _ hwlt

/-! ### Partial-correctness lemmas for the refinement loop -/

/-- Any value returned from inside the refinement loop passed the
`leftover < size` guard. -/
lemma genRangeStep_ret_lt {size l ls : Nat} {s : RngBitstream} {v : Nat} {s' : RngBitstream}
    (h : genRangeStep size l ls s = .ret v s') : v < size := by
  unfold genRangeStep at h
  repeat' split at h
  all_goals cases h
  all_goals assumption

/-- Any value returned by the looped refinement passed the guard. -/
lemma genRangeLoop_ok_lt (size : Nat) :
    ∀ fuel l ls s v s', genRangeLoop size fuel l ls s = .ok v s' → v < size := by
  intro fuel
  induction fuel with
  | zero => intro l ls s v s' h; cases h
  | succ f ih =>
    intro l ls s v s' h
    unfold genRangeLoop at h
    cases hstep : genRangeStep size l ls s with
    | panicked => rw [hstep] at h; cases h
    | ret w t => rw [hstep] at h; cases h; exact genRangeStep_ret_lt hstep
    | cont l2 ls2 t => rw [hstep] at h; exact ih l2 ls2 t v s' h

/-! ### Claim theorems for gen_bits -/

/-- C4: for every `num_bits` in `[0, 64]`, every buffer state with
`unused_bits` in `[0, 64)` (and a u64 cache), and every generator output,
`gen_bits(num_bits)` returns a value with no bits set at or above bit
position `num_bits`, i.e. the value is below `2 ^ num_bits` (at
`num_bits = 64` this is the trivial u64 bound, with no masking applied). -/
theorem c4_bit_containment (num_bits : Nat) (s : RngBitstream)
    (hnb : num_bits ≤ 64) (hu : s.unused_bits < 64) (hbuf : s.bit_buffer < U64) :
    ∀ v s', gen_bits num_bits s = some (v, s') → v < 2 ^ num_bits := by
  intro v s' heq
  obtain ⟨v0, s0, heq0, hlt, -⟩ := gen_bits_spec num_bits s hnb hu hbuf
  rw [heq0, Option.some_inj] at heq
  cases heq
  exact hlt

/-- Witness for C4 at `num_bits = 3` on a fresh buffer over the constant
stream 6: the returned value 6 is below `2 ^ 3`. -/
theorem c4_witness : (6 : Nat) < 2 ^ 3 :=
  c4_bit_containment 3 (RngBitstream.new ⟨fun _ => 6, 0⟩) (by decide) (by decide) (by decide)
    6 ⟨⟨fun _ => 6, 1⟩, 6, 61⟩ (by rfl)

/-- C5: `gen_bits(64)` on a buffer with `unused_bits = 0` draws exactly one
fresh word from the generator (the position advances by one) and returns
that word's full value with no masking; two consecutive such calls consume
exactly two draws and return each drawn word unmasked. -/
theorem c5_full_width_unmasked (s : RngBitstream) (h : s.unused_bits = 0) :
    gen_bits 64 s = some (s.rng.stream s.rng.idx % U64,
        ⟨⟨s.rng.stream, s.rng.idx + 1⟩, s.rng.stream s.rng.idx % U64, 0⟩) ∧
    gen_bits 64 (⟨⟨s.rng.stream, s.rng.idx + 1⟩, s.rng.stream s.rng.idx % U64, 0⟩ : RngBitstream) =
      some (s.rng.stream (s.rng.idx + 1) % U64,
        ⟨⟨s.rng.stream, s.rng.idx + 2⟩, s.rng.stream (s.rng.idx + 1) % U64, 0⟩) := by
  constructor
  · rw [gen_bits_eq_fresh h (by omega) (by omega)]
    simp [maskLow]
  · rw [@gen_bits_eq_fresh 64 ⟨⟨s.rng.stream, s.rng.idx + 1⟩, s.rng.stream s.rng.idx % U64, 0⟩
      rfl (by omega) (by omega)]
    simp [maskLow]

/-- Witness for C5 on the stream `n ↦ n + 100` starting at position 0: the
two calls return 100 and 101 and advance the position to 2. -/
theorem c5_witness :
    gen_bits 64 (RngBitstream.new ⟨fun n => n + 100, 0⟩) =
      some (100, ⟨⟨fun n => n + 100, 1⟩, 100, 0⟩) ∧
    gen_bits 64 (⟨⟨fun n => n + 100, 1⟩, 100, 0⟩ : RngBitstream) =
      some (101, ⟨⟨fun n => n + 100, 2⟩, 101, 0⟩) := by
  have h := c5_full_width_unmasked (RngBitstream.new ⟨fun n => n + 100, 0⟩) rfl
  simpa [U64] using h

/-- C6: `gen_bits(0)` on any state with `unused_bits` in `[0, 64)` returns 0
and leaves the whole state (generator position, cache, and `unused_bits`)
unchanged. -/
theorem c6_zero_bits_noop (s : RngBitstream) (h : s.unused_bits < 64) :
    gen_bits 0 s = some (0, s) := by
  by_cases hpos : 0 < s.unused_bits
  · rw [gen_bits_eq_of_le hpos (Nat.zero_le _) (by omega)]
    have h1 : maskLow 0 (s.bit_buffer >>> (64 - s.unused_bits)) = 0 := by
      rw [maskLow_eq, if_pos (by omega), pow_zero, Nat.mod_one]
    rw [h1, Nat.sub_zero]
  · unfold gen_bits
    simp [hpos]

/-- Witness for C6 at a state with 5 unused bits: the call returns 0 and the
state is untouched. -/
theorem c6_witness :
    gen_bits 0 (⟨⟨fun _ => 0, 0⟩, 17, 5⟩ : RngBitstream) =
      some (0, (⟨⟨fun _ => 0, 0⟩, 17, 5⟩ : RngBitstream)) :=
  c6_zero_bits_noop ⟨⟨fun _ => 0, 0⟩, 17, 5⟩ (by decide)

/-- C7: `0 ≤ unused_bits < 64` is an invariant: it holds for a fresh
`RngBitstream` and is preserved by every `gen_bits(num_bits)` with
`num_bits ≤ 64`; moreover the new `unused_bits` is exactly the old value
minus `num_bits` when the request fits, and `64 - (num_bits - old)` when a
fresh word is drawn. -/
theorem c7_unused_bits_invariant (r : RngState) (num_bits : Nat) (s : RngBitstream)
    (h1 : num_bits ≤ 64) (h2 : s.unused_bits < 64) (h3 : s.bit_buffer < U64) :
    (RngBitstream.new r).unused_bits < 64 ∧
    (gen_bits num_bits s).isSome = true ∧
    ∀ v s', gen_bits num_bits s = some (v, s') →
      s'.unused_bits < 64 ∧
      (num_bits ≤ s.unused_bits → s'.unused_bits = s.unused_bits - num_bits) ∧
      (s.unused_bits < num_bits → s'.unused_bits = 64 - (num_bits - s.unused_bits)) := by
  obtain ⟨v0, s0, heq, hv, hb, hu', hbr1, hbr2⟩ := gen_bits_spec num_bits s h1 h2 h3
  refine ⟨show (0 : Nat) < 64 by omega, by rw [heq]; rfl, ?_⟩
  intro v s' h
  rw [heq, Option.some_inj] at h
  cases h
  refine ⟨hu', ?_, fun hlt => (hbr2 hlt).1⟩
  intro hle
  rw [hbr1 hle]

/-- Witness for C7 at `num_bits = 3` on a state with 61 unused bits: the new
`unused_bits` is 58. -/
theorem c7_witness :
    (⟨⟨fun _ => 6, 1⟩, 6, 58⟩ : RngBitstream).unused_bits < 64 ∧
    (⟨⟨fun _ => 6, 1⟩, 6, 58⟩ : RngBitstream).unused_bits = 61 - 3 :=
  ⟨((c7_unused_bits_invariant ⟨fun _ => 6, 0⟩ 3 ⟨⟨fun _ => 6, 1⟩, 6, 61⟩ (by decide) (by decide)
      (by decide)).2.2 0 ⟨⟨fun _ => 6, 1⟩, 6, 58⟩ (by rfl)).1,
   ((c7_unused_bits_invariant ⟨fun _ => 6, 0⟩ 3 ⟨⟨fun _ => 6, 1⟩, 6, 61⟩ (by decide) (by decide)
      (by decide)).2.2 0 ⟨⟨fun _ => 6, 1⟩, 6, 58⟩ (by rfl)).2.1 (by decide)⟩

/-- C8 counterexample: `gen_bits(65)` (a request outside `[0, 64]`) on the
state with one unused bit does NOT fail fast: it returns a value. -/
theorem c8_counterexample :
    (gen_bits 65 (⟨⟨fun _ => 0, 0⟩, 2 ^ 63, 1⟩ : RngBitstream)).isSome = true := by rfl

/-- C8 amended: for `num_bits > 64`, `gen_bits` fails fast (debug panic on
the `64 - extra_bits` underflow) exactly on states with
`num_bits > 64 + unused_bits` — in particular whenever `unused_bits = 0`;
for `64 < num_bits ≤ 64 + unused_bits` it instead silently returns. -/
theorem c8_amended (num_bits : Nat) (s : RngBitstream)
    (h1 : s.unused_bits < 64) (h2 : 64 + s.unused_bits < num_bits) :
    gen_bits num_bits s = none := by
  by_cases hpos : 0 < s.unused_bits
  · unfold gen_bits checkedSub shr64 shl64 RngState.gen
    simp only [if_pos hpos, if_pos (show s.unused_bits ≤ 64 by omega),
      if_pos (show 64 - s.unused_bits < 64 by omega),
      if_neg (show ¬ num_bits ≤ s.unused_bits by omega), if_pos h1,
      if_neg (show ¬ num_bits - s.unused_bits ≤ 64 by omega)]
  · unfold gen_bits checkedSub shl64 RngState.gen
    simp only [if_neg hpos, if_neg (show ¬ num_bits ≤ s.unused_bits by omega), if_pos h1,
      if_neg (show ¬ num_bits - s.unused_bits ≤ 64 by omega)]

/-- Witness for the amended C8: `gen_bits(65)` on a fresh (empty) buffer
panics. -/
theorem c8_amended_witness :
    (RngBitstream.new ⟨fun _ => 0, 0⟩).unused_bits < 64 ∧
    64 + (RngBitstream.new ⟨fun _ => 0, 0⟩).unused_bits < 65 ∧
    gen_bits 65 (RngBitstream.new ⟨fun _ => 0, 0⟩) = none :=
  ⟨by decide, by decide, c8_amended 65 (RngBitstream.new ⟨fun _ => 0, 0⟩) (by decide) (by decide)⟩

/-! ### Claim theorems for gen_range: error handling and the overflow bug -/

/-- C9: `gen_range(0)` fails fast with a panic, triggered by the underflow
in the `size - 1` bit-width computation, for every fuel and state; it never
returns a value. -/
theorem c9_zero_size_panics (fuel : Nat) (s : RngBitstream) :
    isPanic (gen_range fuel 0 s) = true := by
  unfold gen_range checkedSub
  simp [isPanic]

/-- Witness for C9: a concrete zero-size call panics. -/
theorem c9_witness : isPanic (gen_range 1 0 (RngBitstream.new ⟨fun _ => 0, 0⟩)) = true :=
  c9_zero_size_panics 1 (RngBitstream.new ⟨fun _ => 0, 0⟩)

/-- C2 evaluated at its failing input: `gen_range(u64::MAX)` on a generator
whose first draw is `u64::MAX` reaches `1u64 << 64` (the computation of
`leftover_size` with `bits_needed = 64`) and panics with a shift overflow
instead of completing. -/
theorem c2_bug_shift_overflow :
    isPanic (gen_range 5 (U64 - 1) (RngBitstream.new ⟨fun _ => U64 - 1, 0⟩)) = true := by rfl

/-- C1: whenever `gen_range(size)` returns normally (for any positive size,
any fuel and any generator stream), the returned value is in `[0, size)`:
every return site is guarded by a `leftover < size` test. -/
theorem c1_range_bound (fuel size : Nat) (s : RngBitstream) (_hpos : 0 < size) :
    ∀ v s', gen_range fuel size s = .ok v s' → v < size := by
  intro v s' h
  unfold gen_range at h
  cases h1 : checkedSub size 1 with
  | none => rw [h1] at h; cases h
  | some sm1 =>
    rw [h1] at h
    simp only [] at h
    cases h2 : gen_bits (64 - (64 - bitLen sm1)) s with
    | none => rw [h2] at h; cases h
    | some p =>
      obtain ⟨leftover, s1⟩ := p
      rw [h2] at h
      simp only [] at h
      by_cases h3 : leftover < size
      · rw [if_pos h3] at h
        cases h
        exact h3
      · rw [if_neg h3] at h
        cases h4 : checkedSub leftover size with
        | none => rw [h4] at h; cases h
        | some l1 =>
          rw [h4] at h
          simp only [] at h
          cases h5 : shl64 1 (64 - (64 - bitLen sm1)) with
          | none => rw [h5] at h; cases h
          | some p2 =>
            rw [h5] at h
            simp only [] at h
            cases h6 : checkedSub p2 size with
            | none => rw [h6] at h; cases h
            | some ls0 =>
              rw [h6] at h
              simp only [] at h
              exact genRangeLoop_ok_lt size fuel l1 ls0 s1 v s' h

/-- Witness for C1: `gen_range(1)` on a fresh buffer returns 0 < 1. -/
theorem c1_witness : (0 : Nat) < 1 :=
  c1_range_bound 1 1 (RngBitstream.new ⟨fun _ => 0, 0⟩) (by decide)
    0 (RngBitstream.new ⟨fun _ => 0, 0⟩) (by rfl)

/-! ### Evaluation lemmas for the checked operations -/

lemma checkedSub_eq {a b : Nat} (h : b ≤ a) : checkedSub a b = some (a - b) := by
  unfold checkedSub; rw [if_pos h]

lemma checkedAdd64_eq {a b : Nat} (h : a + b < U64) : checkedAdd64 a b = some (a + b) := by
  unfold checkedAdd64; rw [if_pos h]

lemma checkedMul64_eq {a b : Nat} (h : a * b < U64) : checkedMul64 a b = some (a * b) := by
  unfold checkedMul64; rw [if_pos h]

lemma shl64_eq {a k : Nat} (h : k < 64) : shl64 a k = some ((a <<< k) % U64) := by
  unfold shl64; rw [if_pos h]

lemma isPanic_eq_false {r : RunResult} (h : r ≠ .panicked) : isPanic r = false := by
  cases r with
  | ok v s => rfl
  | panicked => exact absurd rfl h
  | timeout => rfl

/-! ### The inner bits-needed scan -/

/-- Correctness of the inner scan: starting from a position `k` whose
predecessor shift was still short of `size`, the scan stops at the least
`j ≤ 63` with `leftover_size * 2 ^ j ≥ size`, and by minimality that product
is below `2 * size` (so it never wrapped mod `2 ^ 64` on the way). -/
lemma findBitsNeeded_go (size ls : Nat) (hls : 1 ≤ ls) (hsz : size ≤ 2 ^ 63) :
    ∀ gas k, 1 ≤ k → 65 ≤ k + gas → ls * 2 ^ (k - 1) < size →
    ∃ j, findBitsNeeded ls size k gas = some j ∧ k ≤ j ∧ j ≤ 63 ∧
      size ≤ ls * 2 ^ j ∧ ls * 2 ^ j < 2 * size := by
  intro gas
  induction gas with
  | zero =>
    intro k hk1 hk65 hlt
    exfalso
    have h1 : 2 ^ 63 ≤ 2 ^ (k - 1) := Nat.pow_le_pow_right (by omega) (by omega)
    have h2 : 2 ^ (k - 1) ≤ ls * 2 ^ (k - 1) := Nat.le_mul_of_pos_left _ hls
    omega
  | succ g ih =>
    intro k hk1 hk65 hlt
    have hk63 : k ≤ 63 := by
      by_contra hgt
      have h1 : 2 ^ 63 ≤ 2 ^ (k - 1) := Nat.pow_le_pow_right (by omega) (by omega)
      have h2 : 2 ^ (k - 1) ≤ ls * 2 ^ (k - 1) := Nat.le_mul_of_pos_left _ hls
      omega
    have hdouble : ls * 2 ^ k = 2 * (ls * 2 ^ (k - 1)) := by
      have h1 : 2 ^ k = 2 ^ (k - 1) * 2 := by
        rw [← pow_succ]; congr 1; omega
      rw [h1]; ring
    have h64 : 2 * 2 ^ 63 = 2 ^ 64 := by norm_num
    have hmod : (ls <<< k) % U64 = ls * 2 ^ k := by
      rw [Nat.shiftLeft_eq]
      apply Nat.mod_eq_of_lt
      rw [U64_eq]
      omega
    unfold findBitsNeeded
    rw [if_pos (show k < 64 by omega), hmod]
    by_cases hc : ls * 2 ^ k < size
    · rw [if_pos hc]
      obtain ⟨j, hj1, hj2, hj3, hj4, hj5⟩ := ih (k + 1) (by omega) (by omega) (by simpa using hc)
      exact ⟨j, hj1, by omega, hj3, hj4, hj5⟩
    · rw [if_neg hc]
      exact ⟨k, rfl, le_refl k, hk63, by omega, by omega⟩

/-- The scan as called by the loop body: from a residual state with
`1 ≤ leftover_size < size ≤ 2 ^ 63` it finds the least `k ≥ 1` with
`size ≤ leftover_size * 2 ^ k`, and `k ≤ 63` and the product is `< 2 * size`. -/
lemma findBitsNeeded_spec (size ls : Nat) (hls : 1 ≤ ls) (hlt : ls < size)
    (hsz : size ≤ 2 ^ 63) :
    ∃ j, findBitsNeeded ls size 1 64 = some j ∧ 1 ≤ j ∧ j ≤ 63 ∧
      size ≤ ls * 2 ^ j ∧ ls * 2 ^ j < 2 * size :=
  findBitsNeeded_go size ls hls hsz 64 1 (le_refl 1) (by omega) (by simpa using hlt)

/-- Success and bit-containment of `gen_bits` on a well-formed state,
packaged with preservation of well-formedness. -/
lemma gen_bits_WF_succ (nb : Nat) (t : RngBitstream) (hnb : nb ≤ 64) (hWF : t.WF) :
    ∃ b t', gen_bits nb t = some (b, t') ∧ b < 2 ^ nb ∧ t'.WF := by
  obtain ⟨hb, hu⟩ := hWF
  obtain ⟨v, s', heq, hv, hb', hu', -⟩ := gen_bits_spec nb t hnb hu hb
  exact ⟨v, s', heq, hv, hb', hu'⟩

/-! ### Loop-step invariant -/

/-- One refinement-loop iteration at `size ≤ 2 ^ 63`, from any residual
state satisfying the loop invariant `1 ≤ leftover_size < size` and
`leftover < leftover_size` on a well-formed buffer: the scan finds
`k ∈ [1, 63]` with `size ≤ leftover_size * 2 ^ k < 2 * size`, the folded
accumulator stays below `leftover_size * 2 ^ k` (hence below `2 ^ 64`), and
the iteration either returns a value below `size` or continues with the
invariant re-established — it never panics. -/
lemma genRangeStep_spec (size l ls : Nat) (t : RngBitstream) (hsz : size ≤ 2 ^ 63)
    (h1 : 1 ≤ ls) (h2 : ls < size) (h3 : l < ls) (hWF : t.WF) :
    ∃ k, findBitsNeeded ls size 1 64 = some k ∧ 1 ≤ k ∧ k ≤ 63 ∧
      size ≤ ls * 2 ^ k ∧ ls * 2 ^ k < 2 * size ∧
      (∀ b t', gen_bits k t = some (b, t') → l + b * ls < ls * 2 ^ k) ∧
      ((∃ v t', genRangeStep size l ls t = .ret v t' ∧ v < size ∧ t'.WF) ∨
       (∃ l' ls' t', genRangeStep size l ls t = .cont l' ls' t' ∧
         1 ≤ ls' ∧ ls' < size ∧ l' < ls' ∧ t'.WF)) := by
  obtain ⟨k, hfind, hk1, hk63, hsize_le, hlt2⟩ := findBitsNeeded_spec size ls h1 h2 hsz
  obtain ⟨b, t', hgb, hblt, hWF'⟩ := gen_bits_WF_succ k t (by omega) hWF
  have h64 : 2 * 2 ^ 63 = 2 ^ 64 := by norm_num
  have hU : 2 * size ≤ U64 := by rw [U64_eq]; omega
  have hmulmax : b * ls + ls = (b + 1) * ls := by ring
  have hbound : l + b * ls < ls * 2 ^ k := by
    have hble : (b + 1) * ls ≤ 2 ^ k * ls := Nat.mul_le_mul_right ls (by omega)
    have hcomm : 2 ^ k * ls = ls * 2 ^ k := by ring
    omega
  have hcomb : ∀ b0 t0, gen_bits k t = some (b0, t0) → l + b0 * ls < ls * 2 ^ k := by
    intro b0 t0 h
    rw [hgb, Option.some_inj] at h
    cases h
    exact hbound
  have hmul : b * ls < U64 := by omega
  have hadd : l + b * ls < U64 := by omega
  have hmodk : (ls <<< k) % U64 = ls * 2 ^ k := by
    rw [Nat.shiftLeft_eq]
    apply Nat.mod_eq_of_lt
    rw [U64_eq]
    omega
  refine ⟨k, hfind, hk1, hk63, hsize_le, hlt2, hcomb, ?_⟩
  have hstep : genRangeStep size l ls t =
      (if l + b * ls < size then LoopStep.ret (l + b * ls) t'
       else LoopStep.cont (l + b * ls - size) (ls * 2 ^ k - size) t') := by
    unfold genRangeStep
    rw [hfind]
    simp only []
    rw [hgb]
    simp only []
    rw [checkedMul64_eq hmul]
    simp only []
    rw [checkedAdd64_eq hadd]
    simp only []
    by_cases hret : l + b * ls < size
    · rw [if_pos hret, if_pos hret]
    · rw [if_neg hret, if_neg hret, shl64_eq (show k < 64 by omega)]
      simp only []
      rw [hmodk, checkedSub_eq (show size ≤ l + b * ls by omega),
        checkedSub_eq (show size ≤ ls * 2 ^ k by omega)]
  by_cases hret : l + b * ls < size
  · left
    exact ⟨l + b * ls, t', by rw [hstep, if_pos hret], hret, hWF'⟩
  · right
    refine ⟨l + b * ls - size, ls * 2 ^ k - size, t', by rw [hstep, if_neg hret], ?_, ?_, ?_, hWF'⟩
    · omega
    · omega
    · omega

/-! ### Panic-freedom of gen_range for sizes up to 2^63 -/

/-- The refinement loop never panics while the invariant holds (it either
returns a value, keeps looping, or runs out of fuel). -/
lemma genRangeLoop_no_panic (size : Nat) (hsz : size ≤ 2 ^ 63) :
    ∀ fuel l ls t, 1 ≤ ls → ls < size → l < ls → t.WF →
      genRangeLoop size fuel l ls t ≠ .panicked := by
  intro fuel
  induction fuel with
  | zero =>
    intro l ls t _ _ _ _ h
    cases h
  | succ f ih =>
    intro l ls t h1 h2 h3 hWF
    obtain ⟨k, -, -, -, -, -, -, hstep⟩ := genRangeStep_spec size l ls t hsz h1 h2 h3 hWF
    unfold genRangeLoop
    rcases hstep with ⟨v, t', heq, -, -⟩ | ⟨l', ls', t', heq, hi1, hi2, hi3, hWF'⟩
    · rw [heq]
      intro hc
      cases hc
    · rw [heq]
      exact ih l' ls' t' hi1 hi2 hi3 hWF'

/-- `gen_range` never panics for `0 < size ≤ 2 ^ 63` on a well-formed
state: the pre-loop arithmetic succeeds and establishes the loop invariant,
and the loop preserves it. -/
lemma gen_range_no_panic (fuel size : Nat) (s : RngBitstream)
    (h0 : 0 < size) (hsz : size ≤ 2 ^ 63) (hWF : s.WF) :
    gen_range fuel size s ≠ .panicked := by
  have hsm1lt : size - 1 < 2 ^ 63 := by omega
  have hbl : bitLen (size - 1) ≤ 63 := bitLen_le (size - 1) 63 hsm1lt
  have hbn : 64 - (64 - bitLen (size - 1)) = bitLen (size - 1) := by omega
  have hcover : size - 1 < 2 ^ bitLen (size - 1) := by
    apply bitLen_lt
    rw [U64_eq]
    omega
  obtain ⟨v, s1, hgb, hvlt, hWF1⟩ :=
    gen_bits_WF_succ (bitLen (size - 1)) s (by omega) hWF
  unfold gen_range
  rw [checkedSub_eq (show 1 ≤ size by omega)]
  simp only []
  rw [hbn, hgb]
  simp only []
  by_cases hret : v < size
  · rw [if_pos hret]
    intro hc
    cases hc
  · rw [if_neg hret]
    rw [checkedSub_eq (show size ≤ v by omega), shl64_eq (show bitLen (size - 1) < 64 by omega)]
    simp only []
    have hple : 2 ^ bitLen (size - 1) < U64 := by
      rw [U64_eq]
      exact Nat.pow_lt_pow_right (by omega) (by omega)
    have hpmod : ((1 : Nat) <<< bitLen (size - 1)) % U64 = 2 ^ bitLen (size - 1) := by
      rw [Nat.shiftLeft_eq, one_mul]
      exact Nat.mod_eq_of_lt hple
    rw [hpmod, checkedSub_eq (show size ≤ 2 ^ bitLen (size - 1) by omega)]
    simp only []
    have hszgt1 : 2 ≤ size := by
      rcases Nat.lt_or_ge size 2 with hs2 | hs2
      · exfalso
        have hsz1 : size = 1 := by omega
        rw [hsz1] at hvlt hret
        simp [bitLen, bitLenAux_zero] at hvlt
        omega
      · exact hs2
    have hmin : 2 ^ (bitLen (size - 1) - 1) ≤ size - 1 := by
      apply bitLen_min
      · omega
      · rw [U64_eq]; omega
    have hblpos : 0 < bitLen (size - 1) := by
      apply bitLen_pos
      · omega
      · rw [U64_eq]; omega
    have hdbl : 2 ^ bitLen (size - 1) = 2 * 2 ^ (bitLen (size - 1) - 1) := by
      rw [← pow_succ']
      congr 1
      omega
    apply genRangeLoop_no_panic size hsz fuel (v - size) (2 ^ bitLen (size - 1) - size) s1
    · omega
    · omega
    · omega
    · exact hWF1

/-! ### Claim theorems C10 and C3 -/

/-- C10: for `0 < size ≤ 2 ^ 63` all arithmetic in `gen_range` stays within
u64 range: the whole run never panics on a well-formed state, and at the top
of every refinement-loop iteration satisfying the loop invariant
(`1 ≤ leftover_size < size`, `leftover < leftover_size`) the computed extra
bit count `k` is in `[1, 63]`, `leftover + gen_bits(k) * leftover_size` is
below `leftover_size << k`, which is below `2 * size ≤ 2 ^ 64`, the
iteration never panics, and a continuing iteration re-establishes the
invariant. -/
theorem c10_no_overflow (size : Nat) (h0 : 0 < size) (hsz : size ≤ 2 ^ 63) :
    (∀ fuel s, RngBitstream.WF s → isPanic (gen_range fuel size s) = false) ∧
    (∀ l ls t, 1 ≤ ls → ls < size → l < ls → RngBitstream.WF t →
      ∃ k, findBitsNeeded ls size 1 64 = some k ∧ 1 ≤ k ∧ k ≤ 63 ∧
        size ≤ ls * 2 ^ k ∧ ls * 2 ^ k < 2 * size ∧
        (∀ b t', gen_bits k t = some (b, t') → l + b * ls < ls * 2 ^ k) ∧
        genRangeStep size l ls t ≠ LoopStep.panicked ∧
        (∀ l' ls' t', genRangeStep size l ls t = .cont l' ls' t' →
          1 ≤ ls' ∧ ls' < size ∧ l' < ls' ∧ RngBitstream.WF t')) := by
  constructor
  · intro fuel s hWF
    exact isPanic_eq_false (gen_range_no_panic fuel size s h0 hsz hWF)
  · intro l ls t h1 h2 h3 hWF
    obtain ⟨k, hfind, hk1, hk63, hle, hlt2, hcomb, hstep⟩ :=
      genRangeStep_spec size l ls t hsz h1 h2 h3 hWF
    refine ⟨k, hfind, hk1, hk63, hle, hlt2, hcomb, ?_, ?_⟩
    · rcases hstep with ⟨v, t', heq, -, -⟩ | ⟨l', ls', t', heq, -, -, -, -⟩ <;>
        (rw [heq]; intro hc; cases hc)
    · intro l2 ls2 t2 heq2
      rcases hstep with ⟨v, t', heq, -, -⟩ | ⟨l', ls', t', heq, hi1, hi2, hi3, hWF'⟩
      · rw [heq] at heq2
        cases heq2
      · rw [heq] at heq2
        cases heq2
        exact ⟨hi1, hi2, hi3, hWF'⟩

/-- Witness for C10 at `size = 5`: a run on a fresh buffer does not panic. -/
theorem c10_witness :
    isPanic (gen_range 3 5 (RngBitstream.new ⟨fun _ => 0, 0⟩)) = false :=
  (c10_no_overflow 5 (by decide) (by decide)).1 3 (RngBitstream.new ⟨fun _ => 0, 0⟩)
    ⟨by decide, by decide⟩

/-! ### An adversarial generator stream on which gen_range never returns -/

/-- The generator stream whose every word is all ones. -/
def onesStream : Nat → Nat := fun _ => U64 - 1

/-- Buffer states occurring at the top of the refinement loop of
`gen_range 5` with residual `(leftover, leftover_size) = (2, 3)` in the
all-ones run: cache all ones, `unused_bits ≡ 1 (mod 4)`. -/
def OnesA (s : RngBitstream) : Prop :=
  s.rng.stream = onesStream ∧ s.bit_buffer = U64 - 1 ∧
    s.unused_bits % 4 = 1 ∧ s.unused_bits < 64

/-- Buffer states occurring at the top of the refinement loop of
`gen_range 5` with residual `(leftover, leftover_size) = (0, 1)` in the
all-ones run: cache all ones, `unused_bits ≡ 0 (mod 4)`. -/
def OnesB (s : RngBitstream) : Prop :=
  s.rng.stream = onesStream ∧ s.bit_buffer = U64 - 1 ∧
    s.unused_bits % 4 = 0 ∧ s.unused_bits < 64

/-- The top `u` bits of an all-ones cache read as `2 ^ u - 1`. -/
lemma ones_shr (u : Nat) (h1 : 1 ≤ u) (h2 : u ≤ 64) :
    (U64 - 1) >>> (64 - u) = 2 ^ u - 1 := by
  rw [U64_eq, Nat.shiftRight_eq_div_pow, two_pow_sub_one_div (by omega)]
  congr 2
  omega

/-- `gen_bits 1` on an `OnesA` state returns the bit 1 and decrements
`unused_bits`, landing in `OnesB`. -/
lemma gen_bits_ones_1 (s : RngBitstream) (h : OnesA s) :
    gen_bits 1 s = some (1, { s with unused_bits := s.unused_bits - 1 }) ∧
      OnesB { s with unused_bits := s.unused_bits - 1 } := by
  obtain ⟨hstream, hbuf, hmod, hu⟩ := h
  have h1 : 1 ≤ s.unused_bits := by omega
  constructor
  · rw [gen_bits_eq_of_le (by omega) h1 (by omega), hbuf, ones_shr s.unused_bits h1 (by omega)]
    rw [maskLow_eq, if_pos (by omega), two_pow_sub_one_mod h1]
    norm_num
  · exact ⟨hstream, hbuf, show (s.unused_bits - 1) % 4 = 0 by omega,
      show s.unused_bits - 1 < 64 by omega⟩

/-- `gen_bits 3` on an `OnesB` state returns the bits 111 (the value 7) and
lands in `OnesA` (drawing a fresh all-ones word when the cache is empty). -/
lemma gen_bits_ones_3 (s : RngBitstream) (h : OnesB s) :
    ∃ s', gen_bits 3 s = some (7, s') ∧ OnesA s' := by
  obtain ⟨hstream, hbuf, hmod, hu⟩ := h
  by_cases hz : s.unused_bits = 0
  · refine ⟨⟨⟨s.rng.stream, s.rng.idx + 1⟩, s.rng.stream s.rng.idx % U64, 61⟩, ?_, ?_⟩
    · rw [gen_bits_eq_fresh hz (by omega) (by omega)]
      have hw : s.rng.stream s.rng.idx = U64 - 1 := by
        rw [hstream]; rfl
      rw [hw, Nat.mod_eq_of_lt (by rw [U64_eq]; omega), U64_eq,
        maskLow_eq, if_pos (by omega), two_pow_sub_one_mod (by omega)]
      norm_num
    · refine ⟨hstream, ?_, show (61 : Nat) % 4 = 1 by omega, show (61 : Nat) < 64 by omega⟩
      have hw : s.rng.stream s.rng.idx = U64 - 1 := by
        rw [hstream]; rfl
      show s.rng.stream s.rng.idx % U64 = U64 - 1
      rw [hw, Nat.mod_eq_of_lt (by rw [U64_eq]; omega)]
  · have h4 : 4 ≤ s.unused_bits := by omega
    refine ⟨{ s with unused_bits := s.unused_bits - 3 }, ?_, ?_⟩
    · rw [gen_bits_eq_of_le (by omega) (by omega) (by omega), hbuf,
        ones_shr s.unused_bits (by omega) (by omega),
        maskLow_eq, if_pos (by omega), two_pow_sub_one_mod (by omega)]
      norm_num
    · exact ⟨hstream, hbuf, show (s.unused_bits - 3) % 4 = 1 by omega,
        show s.unused_bits - 3 < 64 by omega⟩

/-- One loop iteration of `gen_range 5` from residual `(2, 3)` on an
`OnesA` state continues with residual `(0, 1)` on an `OnesB` state. -/
lemma genRangeStep_ones_A (s : RngBitstream) (h : OnesA s) :
    genRangeStep 5 2 3 s = .cont 0 1 { s with unused_bits := s.unused_bits - 1 } ∧
      OnesB { s with unused_bits := s.unused_bits - 1 } := by
  obtain ⟨hgb, hB⟩ := gen_bits_ones_1 s h
  refine ⟨?_, hB⟩
  unfold genRangeStep
  rw [show findBitsNeeded 3 5 1 64 = some 1 from rfl]
  simp only []
  rw [hgb]
  simp only []
  rw [checkedMul64_eq (by decide)]
  simp only []
  rw [checkedAdd64_eq (by decide)]
  simp only []
  rw [if_neg (by decide), shl64_eq (by decide)]
  simp only []
  rw [show ((3 : Nat) <<< 1) % U64 = 6 from rfl, checkedSub_eq (by decide)]
  simp only []
  rw [checkedSub_eq (by decide)]

/-- One loop iteration of `gen_range 5` from residual `(0, 1)` on an
`OnesB` state continues with residual `(2, 3)` on an `OnesA` state. -/
lemma genRangeStep_ones_B (s : RngBitstream) (h : OnesB s) :
    ∃ s', genRangeStep 5 0 1 s = .cont 2 3 s' ∧ OnesA s' := by
  obtain ⟨s', hgb, hA⟩ := gen_bits_ones_3 s h
  refine ⟨s', ?_, hA⟩
  unfold genRangeStep
  rw [show findBitsNeeded 1 5 1 64 = some 3 from rfl]
  simp only []
  rw [hgb]
  simp only []
  rw [checkedMul64_eq (by decide)]
  simp only []
  rw [checkedAdd64_eq (by decide)]
  simp only []
  rw [if_neg (by decide), shl64_eq (by decide)]
  simp only []
  rw [show ((1 : Nat) <<< 3) % U64 = 8 from rfl, checkedSub_eq (by decide)]
  simp only []
  rw [checkedSub_eq (by decide)]

/-- On the all-ones stream the refinement loop of `gen_range 5` cycles
between the residuals `(2, 3)` and `(0, 1)` forever: with any amount of fuel
it times out. -/
lemma genRangeLoop_ones (fuel : Nat) : ∀ s : RngBitstream,
    (OnesA s → genRangeLoop 5 fuel 2 3 s = .timeout) ∧
    (OnesB s → genRangeLoop 5 fuel 0 1 s = .timeout) := by
  induction fuel with
  | zero => intro s; exact ⟨fun _ => rfl, fun _ => rfl⟩
  | succ f ih =>
    intro s
    constructor
    · intro hA
      obtain ⟨hstep, hB⟩ := genRangeStep_ones_A s hA
      unfold genRangeLoop
      rw [hstep]
      exact (ih _).2 hB
    · intro hB
      obtain ⟨s', hstep, hA⟩ := genRangeStep_ones_B s hB
      unfold genRangeLoop
      rw [hstep]
      exact (ih s').1 hA

/-- C3 counterexample: with `size = 5` on the all-ones generator stream, the
refinement-loop iteration from residual `(0, 1)` neither returns nor
strictly shrinks the residual overflow region: it continues with
`leftover_size = 3 > 1`. -/
theorem c3_counterexample :
    contResidual (genRangeStep 5 0 1 (RngBitstream.new ⟨onesStream, 0⟩)) = some (2, 3) ∧
      ¬ (3 : Nat) < 1 :=
  ⟨by rfl, by decide⟩

/-- C3 amended: `gen_range(size)` need not terminate for every generator
output stream — termination only holds with probability 1.  With `size = 5`
and the all-ones stream, every refinement-loop iteration continues (the
residual region cycles between sizes 3 and 1 and never strictly shrinks
below), so `gen_range` runs forever: for every iteration bound (fuel) it
fails to return. -/
theorem c3_amended_nontermination :
    ∀ fuel, gen_range fuel 5 (RngBitstream.new ⟨onesStream, 0⟩) = RunResult.timeout := by
  intro fuel
  have hpre : gen_range fuel 5 (RngBitstream.new ⟨onesStream, 0⟩) =
      genRangeLoop 5 fuel 2 3 ⟨⟨onesStream, 1⟩, U64 - 1, 61⟩ := rfl
  rw [hpre]
  exact (genRangeLoop_ones fuel ⟨⟨onesStream, 1⟩, U64 - 1, 61⟩).1 ⟨rfl, rfl, by decide, by decide⟩

/-- Witness for the amended C3: with two iterations of fuel, the all-ones
run at size 5 still times out. -/
theorem c3_amended_witness :
    gen_range 2 5 (RngBitstream.new ⟨onesStream, 0⟩) = RunResult.timeout :=
  c3_amended_nontermination 2
